import Mathlib

/-!
Verification of the range-check gadgets of the `halo2_learning` repository.

The development embeds the witness-side arithmetic of the repository's
circuits over the Pallas base field (`pasta::Fp`):

* `lebs2ip` and `compute_running_sum` from
  `example_circuits/src/decompose_range_check/ex1.rs` (lines 129-162),
* the `range_check` polynomial gate shared by
  `example_circuits/src/range_check/ex2.rs` and
  `fibonacci/src/range_check/ex1.rs`,
* the lookup expression and `RangeCheckTable::load` from
  `example_circuits/src/range_check/ex2.rs` and `ex2/table.rs`,
* the selector dispatch of `RangeCheckConfig::assign` from
  `example_circuits/src/range_check/ex2.rs` (lines 93-125).

Rust panics (`assert!`, `assert_eq!`, chunking with size 0, and the
debug-mode overflow of `1u64 << K` for `K ≥ 64`) are modelled by `none`.
-/

namespace Halo2Learning

/-- Modulus of the Pallas base field: the modulus of `pasta::Fp`, the field
used by every circuit and test in the repository
(`use halo2_proofs::pasta::Fp`). -/
def P : ℕ := 28948022309329048855892746252171976963363056481941560715954676764349967630337

/-- The circuit field. `pasta::Fp` is `ZMod P` with canonical values in
`[0, P)`; `Assigned<F>` stores a fraction of field elements and
`evaluate`/arithmetic on it denote the same field operations, so it is
embedded by `F` itself. -/
abbrev F := ZMod P

instance : NeZero P := ⟨by decide⟩

/-- Model of `lebs2ip` (ex1.rs lines 129-134): little-endian bits to integer,
`bits.iter().enumerate().fold(0u64, |acc, (i, b)| acc + if *b \x7b 1 << i \x7d else \x7b 0 \x7d)`.
The `assert!(bits.len() <= 64)` guarding `u64` overflow appears as a
hypothesis in the theorems; under it the `u64` fold never wraps, so the
natural-number fold below is exact. -/
def lebs2ip (bits : List Bool) : ℕ :=
  bits.enum.foldl (fun acc ib => acc + if ib.2 then 2 ^ ib.1 else 0) 0

/-- Canonical little-endian bit representation of a field element:
`value.evaluate().to_le_bits()` (ex1.rs line 146-148). For `pasta::Fp` the
repr is four `u64` limbs, so `to_le_bits` yields the 256 little-endian bits
of the canonical integer value. -/
def toLeBits256 (v : F) : List Bool :=
  (List.range 256).map (Nat.testBit v.val)

/-- Model of `value.chunks(K)` (ex1.rs line 153): split a slice into consecutive
chunks of length `K`, the last chunk possibly shorter. `slice::chunks`
panics when `K = 0`; that case is unreachable here (guarded in
`compute_running_sum`) and arbitrarily returns the singleton. -/
def chunksOf : (K : ℕ) → List Bool → List (List Bool)
  | _, [] => []
  | 0, l => [l]
  | K+1, a :: l => ((a :: l).take (K+1)) :: chunksOf (K+1) ((a :: l).drop (K+1))
termination_by _ l => l.length
decreasing_by simp only [List.length_drop, List.length_cons]; omega

/-- The `K`-bit limbs `c_0, …` produced by `compute_running_sum` (ex1.rs
lines 146-154): the little-endian bits of the value, truncated to
`num_bits`, chunked into `lookup_num_bits`-bit chunks, each chunk read back
as an integer by `lebs2ip`. -/
def limbs (v : F) (num_bits lookup_num_bits : ℕ) : List ℕ :=
  (chunksOf lookup_num_bits ((toLeBits256 v).take num_bits)).map lebs2ip

/-- The running-sum loop body of `compute_running_sum` (ex1.rs lines
153-158): for each chunk `c`,
`z = (z - chunk) * Assigned::from(F::from(1u64 << LOOKUP_NUM_BITS)).invert()`
and the new `z` is pushed. For `K < 64` the shift is `2 ^ K` and
`.invert()` is field inversion, i.e. `ZMod.inv`. -/
def runningSumList (K : ℕ) (z : F) : List (List Bool) → List F
  | [] => []
  | c :: cs =>
      let z1 := (z - ((lebs2ip c : ℕ) : F)) * (((2 ^ K : ℕ) : F))⁻¹
      z1 :: runningSumList K z1 cs

/-- Model of `compute_running_sum` (ex1.rs lines 137-162). A `none` result models a
panic of the Rust function:
* `lookup_num_bits = 0` makes `value.chunks(0)` (and `num_bits / 0`) panic;
* with at least one chunk and `lookup_num_bits ≥ 64`, either the
  `assert!(bits.len() <= 64)` inside `lebs2ip` fires (chunk longer than 64)
  or `1u64 << LOOKUP_NUM_BITS` overflows (a panic in debug builds, the mode
  the repository's tests run in);
* the final `assert_eq!(running_sum.len(), num_bits / LOOKUP_NUM_BITS)`
  fails. -/
def compute_running_sum (value : F) (num_bits lookup_num_bits : ℕ) : Option (List F) :=
  if lookup_num_bits = 0 then none
  else
    let cs := chunksOf lookup_num_bits ((toLeBits256 value).take num_bits)
    if cs ≠ [] ∧ 64 ≤ lookup_num_bits then none
    else
      let zs := runningSumList lookup_num_bits value cs
      if zs.length = num_bits / lookup_num_bits then some zs else none

/-- The `range_check` closure of `RangeCheckConfig::configure`, identical in
`example_circuits/src/range_check/ex2.rs` (lines 68-72) and
`fibonacci/src/range_check/ex1.rs` (lines 42-46):
`(0..range).fold(value.clone(), |expr, i| expr * (Expression::Constant(F::from(i as u64)) - value.clone()))`.
Expressions denote field-valued functions of the queried cell, so the gate
is embedded by its evaluation at the witnessed `value`. -/
def range_check (range : ℕ) (value : F) : F :=
  (List.range range).foldl (fun expr i => expr * (((i : ℕ) : F) - value)) value

/-- Model of `Constraints::with_selector(q_range_check, [("range_check", …)])`
(ex2.rs line 76): the emitted identity is the selector times the
`range_check` polynomial. -/
def gated_range_check (q : F) (range : ℕ) (value : F) : F :=
  q * range_check range value

/-- Modelled from the spec: the polynomial `∏_(i=0)^(R-1) (value - i)` that
§4.2 of the specification (and claim C7) says the `SmallRangeCheck` gate
enforces, for comparison with the `range_check` actually built by the code. -/
def spec_range_check_poly (R : ℕ) (v : F) : F :=
  (List.range R).foldl (fun expr i => expr * (v - ((i : ℕ) : F))) 1

/-- The lookup argument registered by `RangeCheckConfig::configure`
(ex2.rs lines 79-87): the queried tuple is
`q_lookup * value.square()`; its evaluation on the selector value and the
witnessed cell value. -/
def table_lookup_expr (q_lookup value : F) : F :=
  q_lookup * (value * value)

namespace RangeCheckTable

/-- Model of `RangeCheckTable::load` (ex2/table.rs lines 26-41): starting at offset
0 and incrementing by one, assign to row `i` the value
`F::from((i*i) as u64)` for `i in 0..RANGE`. The list entry at index `i` is
the table value at offset `i`. The `usize` square wraps modulo `2^64`
(exact for `RANGE ≤ 2^32`, the regime of every instantiable table). -/
def load (RANGE : ℕ) : List F :=
  (List.range RANGE).map (fun i => ((i * i % 2 ^ 64 : ℕ) : F))

end RangeCheckTable

/-- Model of `RangeCheckConfig::assign` (ex2.rs lines 93-125):
`assert!(range <= LOOKUP_RANGE)` (a panic, modelled `none`), then at row 0
of a fresh region enable `q_range_check` when `range < RANGE` and
`q_lookup` otherwise. The result pair is
(`q_range_check` enabled at offset 0, `q_lookup` enabled at offset 0). -/
def rangeCheckAssign (RANGE LOOKUP_RANGE range : ℕ) : Option (Bool × Bool) :=
  if LOOKUP_RANGE < range then none
  else if range < RANGE then some (true, false)
  else some (false, true)

/-! ### Helper notions for the proofs -/

/-- Value of a little-endian bit list. -/
def bitsValue : List Bool → ℕ
  | [] => 0
  | b :: bs => (if b then 1 else 0) + 2 * bitsValue bs

/-- Base-`b` Horner value of a digit list. -/
def horner (l : List ℕ) (b : ℕ) : ℕ :=
  l.foldr (fun c acc => c + b * acc) 0

/-! ### Helper lemmas -/

theorem lebs2ip_foldl_enumFrom (L : List Bool) : ∀ (s acc : ℕ),
    (L.enumFrom s).foldl (fun acc ib => acc + if ib.2 then 2 ^ ib.1 else 0) acc
      = acc + 2 ^ s * bitsValue L := by
  induction L with
  | nil => intro s acc; simp [bitsValue]
  | cons b bs ih =>
      intro s acc
      rw [List.enumFrom_cons, List.foldl_cons, ih (s+1)]
      cases b <;> simp [bitsValue, pow_succ] <;> ring

theorem lebs2ip_eq_bitsValue (L : List Bool) : lebs2ip L = bitsValue L := by
  have h := lebs2ip_foldl_enumFrom L 0 0
  simpa [lebs2ip, List.enum] using h

theorem bitsValue_lt (L : List Bool) : bitsValue L < 2 ^ L.length := by
  induction L with
  | nil => simp [bitsValue]
  | cons b bs ih =>
      cases b <;> simp [bitsValue, pow_succ] <;> omega

theorem bitsValue_append (L1 L2 : List Bool) :
    bitsValue (L1 ++ L2) = bitsValue L1 + 2 ^ L1.length * bitsValue L2 := by
  induction L1 with
  | nil => simp [bitsValue]
  | cons b bs ih =>
      simp [bitsValue, ih, pow_succ]
      ring

theorem bitsValue_testBit (n : ℕ) : ∀ (m s : ℕ),
    bitsValue ((List.range m).map (fun j => Nat.testBit n (s + j))) = n / 2 ^ s % 2 ^ m := by
  intro m
  induction m with
  | zero => intro s; simp [bitsValue, Nat.mod_one]
  | succ m ih =>
      intro s
      rw [List.range_succ, List.map_append, bitsValue_append]
      simp only [List.map_cons, List.map_nil, List.length_map, List.length_range]
      have hbit : bitsValue [Nat.testBit n (s + m)] = n / 2 ^ (s + m) % 2 := by
        rw [Nat.testBit_to_div_mod]
        rcases Nat.mod_two_eq_zero_or_one (n / 2 ^ (s + m)) with h | h <;>
          simp [bitsValue, h]
      rw [hbit, ih s, Nat.mod_pow_succ]
      have : n / 2 ^ (s + m) = n / 2 ^ s / 2 ^ m := by
        rw [Nat.div_div_eq_div_mul, pow_add]
      rw [this]

theorem bitsValue_testBit_zero (n m : ℕ) :
    bitsValue ((List.range m).map (Nat.testBit n)) = n % 2 ^ m := by
  have h := bitsValue_testBit n m 0
  simpa using h

theorem toLeBits256_take (v : F) (N : ℕ) (hN : N ≤ 256) :
    (toLeBits256 v).take N = (List.range N).map (Nat.testBit v.val) := by
  rw [toLeBits256, ← List.map_take, List.take_range, min_eq_left hN]

theorem horner_nil (b : ℕ) : horner [] b = 0 := rfl

theorem horner_cons (c : ℕ) (l : List ℕ) (b : ℕ) :
    horner (c :: l) b = c + b * horner l b := rfl

theorem horner_eq_sum (l : List ℕ) (b : ℕ) :
    horner l b = ∑ i ∈ Finset.range l.length, l.getD i 0 * b ^ i := by
  induction l with
  | nil => simp [horner]
  | cons c cs ih =>
      rw [horner_cons, ih, List.length_cons, Finset.sum_range_succ']
      simp only [List.getD_cons_succ, List.getD_cons_zero, pow_zero, mul_one, pow_succ,
        Finset.mul_sum]
      rw [add_comm c]
      congr 1
      refine Finset.sum_congr rfl (fun i _ => by ring)

theorem horner_digit (Q : ℕ) : ∀ (l : List ℕ), (∀ c ∈ l, c < Q) →
    ∀ i, i < l.length → horner l Q / Q ^ i % Q = l.getD i 0 := by
  intro l
  induction l with
  | nil => intro _ i hi; simp at hi
  | cons c cs ih =>
      intro hlt i hi
      have hc : c < Q := hlt c (List.mem_cons_self c cs)
      have hQ : 0 < Q := Nat.lt_of_le_of_lt (Nat.zero_le c) hc
      match i with
      | 0 =>
          simp only [pow_zero, Nat.div_one, List.getD_cons_zero, horner_cons]
          rw [Nat.add_mul_mod_self_left]
          exact Nat.mod_eq_of_lt hc
      | i + 1 =>
          simp only [List.getD_cons_succ, horner_cons]
          rw [pow_succ', ← Nat.div_div_eq_div_mul, Nat.add_mul_div_left _ _ hQ,
              Nat.div_eq_of_lt hc, zero_add]
          exact ih (fun x hx => hlt x (List.mem_cons_of_mem c hx)) i (by simpa using hi)

theorem chunksOf_length (K : ℕ) (L : List Bool) :
    (chunksOf (K+1) L).length = (L.length + K) / (K + 1) := by
  match L with
  | [] =>
      simp only [chunksOf, List.length_nil, Nat.zero_add]
      rw [Nat.div_eq_of_lt (Nat.lt_succ_of_le (Nat.le_refl K))]
  | a :: l =>
      rw [chunksOf]
      simp only [List.length_cons]
      rw [chunksOf_length K ((a :: l).drop (K+1))]
      simp only [List.length_drop, List.length_cons]
      rcases le_or_lt (K+1) (l.length + 1) with h | h
      · have e1 : l.length + 1 - (K+1) + K = l.length := by omega
        have e2 : l.length + 1 + K = l.length + (K + 1) := by omega
        rw [e1, e2, Nat.add_div_right _ (Nat.succ_pos K)]
      · have e1 : l.length + 1 - (K+1) + K = K := by omega
        rw [e1, Nat.div_eq_of_lt (by omega), eq_comm]
        exact Nat.div_eq_of_lt_le (by omega) (by omega)
termination_by L.length
decreasing_by simp only [List.length_drop, List.length_cons]; omega

theorem chunksOf_mem_length (K : ℕ) (L : List Bool) :
    ∀ c ∈ chunksOf (K+1) L, c.length ≤ K + 1 := by
  match L with
  | [] => intro c hc; simp [chunksOf] at hc
  | a :: l =>
      intro c hc
      rw [chunksOf] at hc
      rcases List.mem_cons.mp hc with rfl | hmem
      · exact List.length_take_le (K+1) (a :: l)
      · exact chunksOf_mem_length K ((a :: l).drop (K+1)) c hmem
termination_by L.length
decreasing_by simp only [List.length_drop, List.length_cons]; omega

theorem horner_chunksOf (K : ℕ) (L : List Bool) :
    horner ((chunksOf (K+1) L).map bitsValue) (2 ^ (K+1)) = bitsValue L := by
  match L with
  | [] => simp [chunksOf, horner, bitsValue]
  | a :: l =>
      rw [chunksOf]
      simp only [List.map_cons]
      rw [horner_cons, horner_chunksOf K ((a :: l).drop (K+1))]
      rcases le_or_lt (K+1) (l.length + 1) with h | h
      · have htake : ((a :: l).take (K+1)).length = K + 1 := by
          rw [List.length_take]; simp only [List.length_cons]; omega
        conv_rhs => rw [← List.take_append_drop (K+1) (a :: l)]
        rw [bitsValue_append, htake]
      · have hd : (a :: l).drop (K+1) = [] :=
          List.drop_eq_nil_of_le (by simp only [List.length_cons]; omega)
        have ht : (a :: l).take (K+1) = a :: l :=
          List.take_of_length_le (by simp only [List.length_cons]; omega)
        rw [hd, ht]
        simp [bitsValue]
termination_by L.length
decreasing_by simp only [List.length_drop, List.length_cons]; omega

theorem limbs_eq_map_bitsValue (v : F) (N K : ℕ) :
    limbs v N K = (chunksOf K ((toLeBits256 v).take N)).map bitsValue := by
  rw [limbs]
  exact List.map_congr_left (fun c _ => lebs2ip_eq_bitsValue c)

theorem two_pow_mul_inv (K : ℕ) : ((2 ^ K : ℕ) : F) * ((2 ^ K : ℕ) : F)⁻¹ = 1 :=
  ZMod.coe_mul_inv_eq_one _
    (Nat.Coprime.pow_left _ (Nat.coprime_two_left.mpr (by rw [Nat.odd_iff]; decide)))

theorem runningSumList_length (K : ℕ) : ∀ (cs : List (List Bool)) (z : F),
    (runningSumList K z cs).length = cs.length := by
  intro cs
  induction cs with
  | nil => intro z; simp [runningSumList]
  | cons c cs ih => intro z; simp only [runningSumList, List.length_cons, ih]

theorem runningSumList_getLastD (K : ℕ) : ∀ (cs : List (List Bool)) (z : F),
    (runningSumList K z cs).getLastD z * ((2 ^ K : ℕ) : F) ^ cs.length
      = z - ((horner (cs.map lebs2ip) (2 ^ K) : ℕ) : F) := by
  intro cs
  induction cs with
  | nil => intro z; simp [runningSumList, horner]
  | cons c cs ih =>
      intro z
      have hQ := two_pow_mul_inv K
      simp only [runningSumList, List.getLastD_cons, List.length_cons, List.map_cons,
        horner_cons]
      rw [pow_succ, ← mul_assoc, ih]
      push_cast at hQ ⊢
      linear_combination (z - ((lebs2ip c : ℕ) : F)) * hQ

theorem runningSumList_recurrence (K : ℕ) : ∀ (cs : List (List Bool)) (z : F) (i : ℕ),
    i < cs.length →
    (z :: runningSumList K z cs).getD i 0
      = (z :: runningSumList K z cs).getD (i+1) 0 * ((2 ^ K : ℕ) : F)
        + (((cs.map lebs2ip).getD i 0 : ℕ) : F) := by
  intro cs
  induction cs with
  | nil => intro z i hi; simp at hi
  | cons c cs ih =>
      intro z i hi
      match i with
      | 0 =>
          have hQ := two_pow_mul_inv K
          simp only [runningSumList, List.getD_cons_zero, List.getD_cons_succ,
            List.map_cons]
          push_cast at hQ ⊢
          linear_combination (((lebs2ip c : ℕ) : F) - z) * hQ
      | i + 1 =>
          simp only [runningSumList, List.getD_cons_succ, List.map_cons]
          exact ih _ i (by simpa using hi)

theorem take_toLeBits256_length (v : F) (N : ℕ) (hN : N ≤ 256) :
    ((toLeBits256 v).take N).length = N := by
  rw [List.length_take, toLeBits256, List.length_map, List.length_range]
  omega

theorem compute_running_sum_some_elim (v : F) (N K : ℕ) (zs : List F)
    (h : compute_running_sum v N K = some zs) :
    K ≠ 0 ∧
    ¬(chunksOf K ((toLeBits256 v).take N) ≠ [] ∧ 64 ≤ K) ∧
    zs = runningSumList K v (chunksOf K ((toLeBits256 v).take N)) ∧
    zs.length = N / K := by
  simp only [compute_running_sum] at h
  split_ifs at h with h1 h2 h3
  rw [Option.some.injEq] at h
  exact ⟨h1, h2, h.symm, h ▸ h3⟩

theorem compute_running_sum_some_intro (v : F) (N K : ℕ) (hK0 : K ≠ 0) (hK : K < 64)
    (hlen : (runningSumList K v (chunksOf K ((toLeBits256 v).take N))).length = N / K) :
    compute_running_sum v N K
      = some (runningSumList K v (chunksOf K ((toLeBits256 v).take N))) := by
  simp only [compute_running_sum]
  split_ifs with h1 h2
  · exact hK0 h1
  · exact absurd h2.2 (by omega)
  · rfl

theorem chunksOf_length_of_dvd (K N : ℕ) (v : F) (hK0 : 0 < K) (hN : N ≤ 256)
    (hdvd : K ∣ N) :
    (chunksOf K ((toLeBits256 v).take N)).length = N / K := by
  obtain ⟨K', rfl⟩ : ∃ K', K = K' + 1 := ⟨K - 1, by omega⟩
  obtain ⟨m, rfl⟩ := hdvd
  rw [chunksOf_length, take_toLeBits256_length v _ hN,
    Nat.mul_add_div (Nat.succ_pos K'), Nat.div_eq_of_lt (Nat.lt_succ_of_le (le_refl K')),
    add_zero, Nat.mul_div_cancel_left m (Nat.succ_pos K')]

theorem horner_limbs (v : F) (N K : ℕ) (hK0 : 0 < K) (hN : N ≤ 256) :
    horner (limbs v N K) (2 ^ K) = v.val % 2 ^ N := by
  obtain ⟨K', rfl⟩ : ∃ K', K = K' + 1 := ⟨K - 1, by omega⟩
  rw [limbs_eq_map_bitsValue, horner_chunksOf, toLeBits256_take v N hN,
    bitsValue_testBit_zero]

theorem limbs_lt (v : F) (N K : ℕ) (hK0 : 0 < K) :
    ∀ x ∈ limbs v N K, x < 2 ^ K := by
  obtain ⟨K', rfl⟩ : ∃ K', K = K' + 1 := ⟨K - 1, by omega⟩
  intro x hx
  rw [limbs] at hx
  obtain ⟨c, hc, rfl⟩ := List.mem_map.mp hx
  rw [lebs2ip_eq_bitsValue]
  exact lt_of_lt_of_le (bitsValue_lt c)
    (Nat.pow_le_pow_right (by omega) (chunksOf_mem_length K' _ c hc))

theorem limbs_length_of_dvd (v : F) (N K : ℕ) (hK0 : 0 < K) (hN : N ≤ 256)
    (hdvd : K ∣ N) : (limbs v N K).length = N / K := by
  rw [limbs, List.length_map]
  exact chunksOf_length_of_dvd K N v hK0 hN hdvd

theorem running_sum_terminal (v : F) (N K : ℕ) (hK0 : 0 < K) (hN : N ≤ 256) :
    (runningSumList K v (chunksOf K ((toLeBits256 v).take N))).getLastD v
        * ((2 ^ K : ℕ) : F) ^ (chunksOf K ((toLeBits256 v).take N)).length
      = v - ((v.val % 2 ^ N : ℕ) : F) := by
  rw [runningSumList_getLastD]
  congr 2
  rw [show (chunksOf K ((toLeBits256 v).take N)).map lebs2ip = limbs v N K from rfl,
    horner_limbs v N K hK0 hN]

theorem eq_zero_of_mul_pow_eq_zero (K n : ℕ) (x : F)
    (h : x * ((2 ^ K : ℕ) : F) ^ n = 0) : x = 0 := by
  have hQ := two_pow_mul_inv K
  calc x = x * (((2 ^ K : ℕ) : F) * ((2 ^ K : ℕ) : F)⁻¹) ^ n := by
        rw [hQ, one_pow, mul_one]
    _ = (x * ((2 ^ K : ℕ) : F) ^ n) * (((2 ^ K : ℕ) : F)⁻¹) ^ n := by
        rw [mul_pow]; ring
    _ = 0 := by rw [h, zero_mul]

theorem sub_mod_cast_ne_zero (v : F) (N : ℕ) (hv : 2 ^ N ≤ v.val) :
    v - ((v.val % 2 ^ N : ℕ) : F) ≠ 0 := by
  intro h
  rw [sub_eq_zero] at h
  have hlt : v.val % 2 ^ N < P := lt_of_le_of_lt (Nat.mod_le _ _) (ZMod.val_lt v)
  have hval := congrArg ZMod.val h
  rw [ZMod.val_cast_of_lt hlt] at hval
  have hmod : v.val % 2 ^ N < 2 ^ N := Nat.mod_lt _ (Nat.pow_pos (by norm_num))
  omega

/-- C1: for every field element whose canonical integer value lies in
`[0, 2^N)` and every limb width `K` dividing `N` (with `0 < K < 64` so the
`1u64 << K` factor is defined, and `N ≤ 256`, the width of the bit
representation), `compute_running_sum` succeeds and produces `C = N/K`
limbs, each in `[0, 2^K)`, whose weighted sum `Σ c_i · 2^(i·K)` equals the
value, and the terminal running-sum value `z_C` is exactly zero. -/
theorem c1_decomposition_correct (v : F) (N K : ℕ)
    (hK0 : 0 < K) (hK : K < 64) (hdvd : K ∣ N) (hN : N ≤ 256) (hv : v.val < 2 ^ N) :
    ∃ zs, compute_running_sum v N K = some zs ∧
      zs.length = N / K ∧
      (limbs v N K).length = N / K ∧
      (∀ i, i < N / K → (limbs v N K).getD i 0 < 2 ^ K) ∧
      (∑ i ∈ Finset.range (N / K), (limbs v N K).getD i 0 * 2 ^ (i * K)) = v.val ∧
      zs.getLastD v = 0 := by
  have hcl : (chunksOf K ((toLeBits256 v).take N)).length = N / K :=
    chunksOf_length_of_dvd K N v hK0 hN hdvd
  have hzl : (runningSumList K v (chunksOf K ((toLeBits256 v).take N))).length = N / K := by
    rw [runningSumList_length, hcl]
  refine ⟨_, compute_running_sum_some_intro v N K (by omega) hK hzl, hzl,
    limbs_length_of_dvd v N K hK0 hN hdvd, ?_, ?_, ?_⟩
  · intro i hi
    have hil : i < (limbs v N K).length := by
      rw [limbs_length_of_dvd v N K hK0 hN hdvd]; exact hi
    have hmem : (limbs v N K).getD i 0 ∈ limbs v N K := by
      rw [List.getD_eq_getElem _ _ hil]; exact List.getElem_mem hil
    exact limbs_lt v N K hK0 _ hmem
  · have hs := horner_eq_sum (limbs v N K) (2 ^ K)
    rw [limbs_length_of_dvd v N K hK0 hN hdvd, horner_limbs v N K hK0 hN,
      Nat.mod_eq_of_lt hv] at hs
    rw [hs]
    refine Finset.sum_congr rfl (fun i _ => ?_)
    rw [mul_comm i K, pow_mul]
  · have ht := running_sum_terminal v N K hK0 hN
    rw [Nat.mod_eq_of_lt hv,
      show ((v.val : ℕ) : F) = v from ZMod.natCast_rightInverse v, sub_self] at ht
    exact eq_zero_of_mul_pow_eq_zero K _ _ ht

/-- C1 witness: the concrete scenario `K = 8`, `N = 8`, `v = 200` from §8 of
the specification. -/
theorem c1_witness :
    (200 : F).val < 2 ^ 8 ∧
    (∃ zs, compute_running_sum (200 : F) 8 8 = some zs ∧
      zs.length = 8 / 8 ∧
      (limbs (200 : F) 8 8).length = 8 / 8 ∧
      (∀ i, i < 8 / 8 → (limbs (200 : F) 8 8).getD i 0 < 2 ^ 8) ∧
      (∑ i ∈ Finset.range (8 / 8), (limbs (200 : F) 8 8).getD i 0 * 2 ^ (i * 8))
        = (200 : F).val ∧
      zs.getLastD (200 : F) = 0) :=
  ⟨by decide, c1_decomposition_correct 200 8 8 (by norm_num) (by norm_num)
    (by norm_num) (by norm_num) (by decide)⟩

/-- C2: a field element whose canonical integer value needs more than `N`
bits (`2^N ≤ v.val`) still yields a successful `compute_running_sum` run
(for `K ∣ N`, `0 < K < 64`, `N ≤ 256`), but the terminal running-sum value
after `C = N/K` steps is provably nonzero. -/
theorem c2_soundness_boundary (v : F) (N K : ℕ)
    (hK0 : 0 < K) (hK : K < 64) (hdvd : K ∣ N) (hN : N ≤ 256) (hv : 2 ^ N ≤ v.val) :
    ∃ zs, compute_running_sum v N K = some zs ∧ zs.getLastD v ≠ 0 := by
  have hcl : (chunksOf K ((toLeBits256 v).take N)).length = N / K :=
    chunksOf_length_of_dvd K N v hK0 hN hdvd
  have hzl : (runningSumList K v (chunksOf K ((toLeBits256 v).take N))).length = N / K := by
    rw [runningSumList_length, hcl]
  refine ⟨_, compute_running_sum_some_intro v N K (by omega) hK hzl, ?_⟩
  intro h0
  have ht := running_sum_terminal v N K hK0 hN
  rw [h0, zero_mul] at ht
  exact sub_mod_cast_ne_zero v N hv ht.symm

/-- C2 witness: `v = 2^8 = 256` decomposed with `N = 8`, `K = 8`. -/
theorem c2_witness :
    2 ^ 8 ≤ (256 : F).val ∧
    (∃ zs, compute_running_sum (256 : F) 8 8 = some zs ∧
      zs.getLastD (256 : F) ≠ 0) :=
  ⟨by decide, c2_soundness_boundary 256 8 8 (by norm_num) (by norm_num)
    (by norm_num) (by norm_num) (by decide)⟩

/-- C3 counterexample: `num_bits = 0` is not a positive multiple of the limb
width `K = 8`, yet `compute_running_sum` does not fail: it silently returns
the empty decomposition (truncating the whole value away), so no
decomposition-size error is raised for this input. -/
theorem c3_counterexample :
    compute_running_sum (0 : F) 0 8 = some [] ∧ ¬ 0 < (0 : ℕ) := by
  refine ⟨?_, by omega⟩
  simp [compute_running_sum, chunksOf, runningSumList]

/-- C3 (amended): for a positive `num_bits` that is not a multiple of the
limb width (`0 < K < 64`, `num_bits ≤ 256`), the witness-pass computation
does fail — the final `assert_eq!(running_sum.len(), num_bits / K)` panics,
because chunking produces `⌈num_bits/K⌉ ≠ num_bits/K` limbs — so no padded
or truncated decomposition is returned; but for `num_bits = 0` (also not a
positive multiple) it silently succeeds with an empty decomposition
(see the counterexample above), and no validation happens at configure time. -/
theorem c3_amended_fail_fast (v : F) (N K : ℕ) (hK0 : 0 < K) (hK : K < 64)
    (hN0 : 0 < N) (hN : N ≤ 256) (hndvd : ¬ K ∣ N) :
    compute_running_sum v N K = none := by
  obtain ⟨K', rfl⟩ : ∃ K', K = K' + 1 := ⟨K - 1, by omega⟩
  cases hcs : compute_running_sum v N (K' + 1) with
  | none => rfl
  | some zs =>
      exfalso
      obtain ⟨_, _, hzs, hlen⟩ := compute_running_sum_some_elim v N (K' + 1) zs hcs
      subst hzs
      rw [runningSumList_length, chunksOf_length, take_toLeBits256_length v N hN] at hlen
      have hsucc := Nat.succ_div (N - 1) (K' + 1)
      rw [Nat.sub_add_cancel hN0, if_neg hndvd, add_zero] at hsucc
      have he : N + K' = (N - 1) + (K' + 1) := by omega
      rw [he, Nat.add_div_right _ (Nat.succ_pos K'), ← hsucc] at hlen
      exact absurd hlen (Nat.succ_ne_self _)

/-- C3 witness for the amended claim: `num_bits = 5` with limb width
`K = 3`. -/
theorem c3_amended_witness :
    0 < 5 ∧ ¬ (3 : ℕ) ∣ 5 ∧ compute_running_sum (0 : F) 5 3 = none :=
  ⟨by norm_num, by norm_num,
    c3_amended_fail_fast 0 5 3 (by norm_num) (by norm_num) (by norm_num)
      (by norm_num) (by norm_num)⟩

/-- C4: whenever `compute_running_sum v N K` succeeds with running sums
`zs = [z_1, …, z_C]`, the full sequence `z_0 = v, z_1, …, z_C` satisfies
the field recurrence `z_i = z_(i+1) · 2^K + c_i` for every `i < C`, where
`c_i` is the i-th `K`-bit limb (the low `K` bits of the value remaining at
step `i`), i.e. the division by `2^K` performed as multiplication by its
inverse is exact. -/
theorem c4_recurrence (v : F) (N K : ℕ) (zs : List F)
    (h : compute_running_sum v N K = some zs) (i : ℕ) (hi : i < zs.length) :
    (v :: zs).getD i 0
      = (v :: zs).getD (i + 1) 0 * ((2 ^ K : ℕ) : F)
        + (((limbs v N K).getD i 0 : ℕ) : F) := by
  obtain ⟨hK0, hguard, hzs, hlen⟩ := compute_running_sum_some_elim v N K zs h
  subst hzs
  rw [runningSumList_length] at hi
  exact runningSumList_recurrence K _ v i hi

/-- C4 witness: the recurrence at step 0 of the decomposition of `v = 200`
with `N = 8`, `K = 8`. -/
theorem c4_witness :
    ((200 : F) :: runningSumList 8 (200 : F)
        (chunksOf 8 ((toLeBits256 (200 : F)).take 8))).getD 0 0
      = ((200 : F) :: runningSumList 8 (200 : F)
          (chunksOf 8 ((toLeBits256 (200 : F)).take 8))).getD (0 + 1) 0
          * ((2 ^ 8 : ℕ) : F)
        + (((limbs (200 : F) 8 8).getD 0 0 : ℕ) : F) := by
  have hlen : (runningSumList 8 (200 : F)
      (chunksOf 8 ((toLeBits256 (200 : F)).take 8))).length = 8 / 8 := by
    rw [runningSumList_length,
      chunksOf_length_of_dvd 8 8 200 (by norm_num) (by norm_num) (by norm_num)]
  exact c4_recurrence 200 8 8 _
    (compute_running_sum_some_intro 200 8 8 (by norm_num) (by norm_num) hlen)
    0 (by rw [hlen]; norm_num)

/-- C5: `RangeCheckTable::load` populates the table with exactly `RANGE`
rows at consecutive offsets `0 … RANGE-1`; row `i` holds `f(i) = i²` (the
squared-membership variant built by the code), and — for any instantiable
`RANGE ≤ 2^32`, where the `usize` square is exact — all rows are pairwise
distinct, so the table is the transform image of `\x7b0, …, RANGE-1\x7d` with
each element appearing exactly once, independent of any witness. -/
theorem c5_table_load (RANGE : ℕ) (h32 : RANGE ≤ 2 ^ 32) :
    (RangeCheckTable.load RANGE).length = RANGE ∧
    (∀ i, i < RANGE → (RangeCheckTable.load RANGE).getD i 0 = ((i * i : ℕ) : F)) ∧
    (RangeCheckTable.load RANGE).Nodup := by
  have hsq : ∀ i, i < RANGE → i * i < 2 ^ 64 := by
    intro i hi
    calc i * i < 2 ^ 32 * 2 ^ 32 :=
          Nat.mul_lt_mul'' (lt_of_lt_of_le hi h32) (lt_of_lt_of_le hi h32)
      _ = 2 ^ 64 := by norm_num
  have hP : (2 : ℕ) ^ 64 < P := by decide
  refine ⟨by rw [RangeCheckTable.load, List.length_map, List.length_range], ?_, ?_⟩
  · intro i hi
    have hi' : i < ((List.range RANGE).map
        (fun i => ((i * i % 2 ^ 64 : ℕ) : F))).length := by
      rw [List.length_map, List.length_range]; exact hi
    rw [RangeCheckTable.load, List.getD_eq_getElem _ _ hi', List.getElem_map,
      List.getElem_range, Nat.mod_eq_of_lt (hsq i hi)]
  · rw [RangeCheckTable.load]
    refine List.Nodup.map_on ?_ (List.nodup_range RANGE)
    intro x hx y hy hxy
    rw [List.mem_range] at hx hy
    rw [Nat.mod_eq_of_lt (hsq x hx), Nat.mod_eq_of_lt (hsq y hy)] at hxy
    have hvx := congrArg ZMod.val hxy
    rw [ZMod.val_cast_of_lt (lt_trans (hsq x hx) hP),
      ZMod.val_cast_of_lt (lt_trans (hsq y hy) hP)] at hvx
    exact Nat.mul_self_inj.mp hvx

/-- C5 witness: the `RANGE = 256` table of the repository's tests. -/
theorem c5_witness :
    (RangeCheckTable.load 256).length = 256 ∧
    (∀ i, i < 256 → (RangeCheckTable.load 256).getD i 0 = ((i * i : ℕ) : F)) ∧
    (RangeCheckTable.load 256).Nodup :=
  c5_table_load 256 (by norm_num)

/-- C6 counterexample: with the lookup selector active and witnessed value
2, the looked-up tuple is `1 · 2² = 4`, not the row's value 2: the gate
does transform the value (it squares it) before the lookup. -/
theorem c6_counterexample :
    table_lookup_expr 1 2 = 4 ∧ table_lookup_expr 1 2 ≠ 2 := by
  constructor <;> decide

/-- C6 (amended): whenever `q_lookup` is active, the looked-up tuple is the
square of the row's value, `q_lookup · value²`; for `value = i < RANGE` it
matches row `i` of the (squared) table, and when the selector is inactive
the tuple is 0, which matches row 0 of the table. The gate itself performs
a squaring transformation of the value, not a bare-value lookup. -/
theorem c6_amended_lookup_square (RANGE : ℕ) (h32 : RANGE ≤ 2 ^ 32) (hR : 0 < RANGE)
    (i : ℕ) (hi : i < RANGE) (w : F) :
    table_lookup_expr 1 ((i : ℕ) : F) = ((i * i : ℕ) : F) ∧
    table_lookup_expr 1 ((i : ℕ) : F) ∈ RangeCheckTable.load RANGE ∧
    table_lookup_expr 0 w = 0 ∧
    table_lookup_expr 0 w ∈ RangeCheckTable.load RANGE := by
  have hsq : i * i < 2 ^ 64 := by
    calc i * i < 2 ^ 32 * 2 ^ 32 :=
          Nat.mul_lt_mul'' (lt_of_lt_of_le hi h32) (lt_of_lt_of_le hi h32)
      _ = 2 ^ 64 := by norm_num
  have h1 : table_lookup_expr 1 ((i : ℕ) : F) = ((i * i : ℕ) : F) := by
    rw [table_lookup_expr]
    push_cast
    ring
  have h0 : table_lookup_expr 0 w = 0 := by
    rw [table_lookup_expr, zero_mul]
  refine ⟨h1, ?_, h0, ?_⟩
  · rw [h1, RangeCheckTable.load]
    exact List.mem_map.mpr ⟨i, List.mem_range.mpr hi, by rw [Nat.mod_eq_of_lt hsq]⟩
  · rw [h0, RangeCheckTable.load]
    exact List.mem_map.mpr ⟨0, List.mem_range.mpr hR, by norm_num⟩

/-- C6 witness for the amended claim: `RANGE = 256`, active-selector value
3 (tuple 9) and an inactive row with value 7 (tuple 0). -/
theorem c6_amended_witness :
    table_lookup_expr 1 ((3 : ℕ) : F) = ((3 * 3 : ℕ) : F) ∧
    table_lookup_expr 1 ((3 : ℕ) : F) ∈ RangeCheckTable.load 256 ∧
    table_lookup_expr 0 (7 : F) = 0 ∧
    table_lookup_expr 0 (7 : F) ∈ RangeCheckTable.load 256 :=
  c6_amended_lookup_square 256 (by norm_num) (by norm_num) 3 (by norm_num) 7

/-- C7 counterexample: for `R = 1` and witnessed value 1, the gate
polynomial built by the code evaluates to `1 · (0 − 1) = −1` while the
claimed polynomial `∏_(i=0)^(R-1) (value − i)` evaluates to `1 − 0 = 1`:
the gate does not build `∏ (value − i)`. -/
theorem c7_counterexample :
    range_check 1 (1 : F) ≠ spec_range_check_poly 1 (1 : F) := by
  decide

/-- C7 (amended): the fold actually gates the polynomial
`value · ∏_(i=0)^(R-1) (i − value) = (−1)^R · value · ∏_(i=0)^(R-1) (value − i)`,
the specification's product times one extra degree-one factor `value` (and
a sign): the ungated polynomial has total degree `R + 1`, hence the
selector-gated identity `q · range_check` has total degree `R + 2`. For
`R ≥ 1` the extra root 0 already lies in `\x7b0, …, R−1\x7d`, so the vanishing
set over the field is unchanged. -/
theorem c7_amended_gate_poly (R : ℕ) (v : F) :
    range_check R v = (-1) ^ R * v * spec_range_check_poly R v := by
  induction R with
  | zero => simp [range_check, spec_range_check_poly]
  | succ R ih =>
      simp only [range_check, spec_range_check_poly, List.range_succ, List.foldl_append,
        List.foldl_cons, List.foldl_nil] at ih ⊢
      rw [ih]
      ring

/-- C8: for bound `R = 8` with the selector active, the gate expression
vanishes at every witnessed value in `\x7b0, …, 7\x7d` and is a nonzero field
element at value 8: the check accepts `\x7b0, …, 7\x7d` and rejects 8. -/
theorem c8_small_range_boundary :
    (∀ i : ℕ, i < 8 → gated_range_check 1 8 ((i : ℕ) : F) = 0) ∧
    gated_range_check 1 8 (8 : F) ≠ 0 := by
  constructor
  · decide
  · decide

/-- C8 witness: acceptance at 3 and rejection at 8. -/
theorem c8_witness :
    gated_range_check 1 8 ((3 : ℕ) : F) = 0 ∧ gated_range_check 1 8 (8 : F) ≠ 0 :=
  ⟨c8_small_range_boundary.1 3 (by norm_num), c8_small_range_boundary.2⟩

theorem bitsValue_eq_sum (L : List Bool) :
    bitsValue L = ∑ i ∈ Finset.range L.length, (if L.getD i false then 2 ^ i else 0) := by
  induction L with
  | nil => simp [bitsValue]
  | cons b bs ih =>
      rw [show bitsValue (b :: bs) = (if b then 1 else 0) + 2 * bitsValue bs from rfl, ih]
      rw [List.length_cons, Finset.sum_range_succ']
      simp only [List.getD_cons_succ, List.getD_cons_zero, pow_zero]
      rw [Finset.mul_sum, add_comm]
      congr 1
      refine Finset.sum_congr rfl (fun i _ => ?_)
      split <;> ring

/-- C9: `lebs2ip` computes the little-endian value `Σ bits[i] · 2^i` on its
asserted domain of bit sequences of length ≤ 64; it inverts the
little-endian bit representation (applying it to the `m ≤ 64` low bits of
`n < 2^m` recovers `n`); and applied to the `K`-bit chunks used by
`compute_running_sum` it recovers each chunk's integer value: limb `i` is
the `i`-th base-`2^K` digit of the value truncated to `num_bits` bits. -/
theorem c9_lebs2ip_round_trip :
    (∀ bits : List Bool, bits.length ≤ 64 →
      lebs2ip bits
        = ∑ i ∈ Finset.range bits.length, (if bits.getD i false then 2 ^ i else 0)) ∧
    (∀ n m : ℕ, m ≤ 64 → n < 2 ^ m →
      lebs2ip ((List.range m).map (Nat.testBit n)) = n) ∧
    (∀ (v : F) (N K i : ℕ), 0 < K → K ≤ 64 → N ≤ 256 → i < N / K →
      (limbs v N K).getD i 0 = v.val % 2 ^ N / 2 ^ (K * i) % 2 ^ K) := by
  refine ⟨?_, ?_, ?_⟩
  · intro bits _
    rw [lebs2ip_eq_bitsValue, bitsValue_eq_sum]
  · intro n m _ hn
    rw [lebs2ip_eq_bitsValue, bitsValue_testBit_zero, Nat.mod_eq_of_lt hn]
  · intro v N K i hK0 _ hN hi
    have hlen : i < (limbs v N K).length := by
      obtain ⟨K', rfl⟩ : ∃ K', K = K' + 1 := ⟨K - 1, by omega⟩
      rw [limbs, List.length_map, chunksOf_length, take_toLeBits256_length v N hN]
      calc i < N / (K' + 1) := hi
        _ ≤ (N + K') / (K' + 1) := Nat.div_le_div_right (by omega)
    have hdig := horner_digit (2 ^ K) (limbs v N K) (limbs_lt v N K hK0) i hlen
    rw [horner_limbs v N K hK0 hN] at hdig
    rw [pow_mul]
    exact hdig.symm

/-- C9 witness: the sum formula on `[true, false, true]` and the round trip
on the 3 low bits of 5. -/
theorem c9_witness :
    lebs2ip [true, false, true]
      = ∑ i ∈ Finset.range ([true, false, true] : List Bool).length,
          (if ([true, false, true] : List Bool).getD i false then 2 ^ i else 0) ∧
    lebs2ip ((List.range 3).map (Nat.testBit 5)) = 5 :=
  ⟨c9_lebs2ip_round_trip.1 [true, false, true] (by norm_num),
   c9_lebs2ip_round_trip.2.1 5 3 (by norm_num) (by norm_num)⟩

/-- C10: `RangeCheckConfig::assign` panics exactly when
`range > LOOKUP_RANGE`, and for any admissible `range` it enables exactly
one selector at row 0: `q_range_check` precisely when `range < RANGE`,
`q_lookup` precisely when `range ≥ RANGE` — in particular `range = RANGE`
takes the lookup path, not the polynomial path. -/
theorem c10_assign_selector_dispatch :
    (∀ RANGE LOOKUP_RANGE r : ℕ, LOOKUP_RANGE < r →
      rangeCheckAssign RANGE LOOKUP_RANGE r = none) ∧
    (∀ RANGE LOOKUP_RANGE r : ℕ, r ≤ LOOKUP_RANGE → r < RANGE →
      rangeCheckAssign RANGE LOOKUP_RANGE r = some (true, false)) ∧
    (∀ RANGE LOOKUP_RANGE r : ℕ, r ≤ LOOKUP_RANGE → RANGE ≤ r →
      rangeCheckAssign RANGE LOOKUP_RANGE r = some (false, true)) ∧
    (∀ RANGE LOOKUP_RANGE : ℕ, RANGE ≤ LOOKUP_RANGE →
      rangeCheckAssign RANGE LOOKUP_RANGE RANGE = some (false, true)) ∧
    (∀ RANGE LOOKUP_RANGE r : ℕ, ∀ s : Bool × Bool,
      rangeCheckAssign RANGE LOOKUP_RANGE r = some s → s.1 ≠ s.2) := by
  refine ⟨?_, ?_, ?_, ?_, ?_⟩
  · intro A L r h
    rw [rangeCheckAssign, if_pos h]
  · intro A L r h1 h2
    rw [rangeCheckAssign, if_neg (by omega), if_pos h2]
  · intro A L r h1 h2
    rw [rangeCheckAssign, if_neg (by omega), if_neg (by omega)]
  · intro A L h
    rw [rangeCheckAssign, if_neg (by omega), if_neg (by omega)]
  · intro A L r s hs
    rw [rangeCheckAssign] at hs
    split_ifs at hs <;>
      rw [Option.some.injEq] at hs <;> rw [← hs] <;> decide

/-- C10 witness: with `RANGE = 8`, `LOOKUP_RANGE = 256`: `range = 300`
panics, and the boundary `range = RANGE = 8` enables only `q_lookup`. -/
theorem c10_witness :
    rangeCheckAssign 8 256 300 = none ∧ rangeCheckAssign 8 256 8 = some (false, true) :=
  ⟨c10_assign_selector_dispatch.1 8 256 300 (by norm_num),
   c10_assign_selector_dispatch.2.2.2.1 8 256 (by norm_num)⟩

end Halo2Learning
